import Mathlib

/-!
Verification of the Action Execution & Session Management engine of the
ml.school-extension repository.

Text is modelled as `List Char` (`Str`), matching JavaScript strings as
sequences of characters.  Each definition below is a shallow embedding of a
function of the repository (the React app in `App.tsx`, the Pyodide runner in
`pyRunner.ts`, and the VS Code extension in `extension.ts`), named after its
source symbol where Lean allows it.
-/

deriving instance DecidableEq for Except

/-- JavaScript strings are modelled as lists of characters. -/
abbrev Str := List Char

/-- Convert a Lean string literal to the character-list model. -/
def str (s : String) : Str := s.data

/-- The character class matched by the JavaScript regex `\s` and removed by
`String.prototype.trim`: space, tab, newline, carriage return, form feed,
vertical tab, and the common Unicode space characters. -/
def jsIsSpace (c : Char) : Bool :=
  c = ' ' || c = '\t' || c = '\n' || c = '\r' ||
  c.toNat = 0xb || c.toNat = 0xc ||
  c.toNat = 0xa0 || c.toNat = 0x1680 ||
  (0x2000 ≤ c.toNat && c.toNat ≤ 0x200a) ||
  c.toNat = 0x2028 || c.toNat = 0x2029 || c.toNat = 0x202f ||
  c.toNat = 0x205f || c.toNat = 0x3000 || c.toNat = 0xfeff

/-- JavaScript `String.prototype.trim`: strip leading and trailing whitespace. -/
def trimStr (l : Str) : Str :=
  ((l.dropWhile jsIsSpace).reverse.dropWhile jsIsSpace).reverse

/-- JavaScript `String.prototype.split` with a single-character separator:
`"a,b".split(",") = ["a","b"]`, `"".split(",") = [""]`, `"a,".split(",") =
["a",""]`. -/
def splitChar (sep : Char) : Str → List Str
  | [] => [[]]
  | c :: cs =>
    match splitChar sep cs with
    | [] => if c = sep then [[], []] else [[c]]
    | h :: t => if c = sep then [] :: h :: t else (c :: h) :: t

/-- JavaScript `Array.prototype.join(sep)`. -/
def joinSep (sep : Str) : List Str → Str
  | [] => []
  | [x] => x
  | x :: y :: l => x ++ sep ++ joinSep sep (y :: l)

/-- `Array.prototype.join` with a newline, as used throughout `App.tsx`. -/
def joinNl (l : List Str) : Str := joinSep ['\n'] l

/-- JavaScript `Array.prototype.map((x, i) => ...)` starting the index at `k`. -/
def mapIdxFrom (f : Nat → α → β) (k : Nat) : List α → List β
  | [] => []
  | a :: l => f k a :: mapIdxFrom f (k + 1) l

/-- JavaScript `Array.prototype.map((x, i) => ...)`. -/
def jsMapIdx (f : Nat → α → β) (l : List α) : List β := mapIdxFrom f 0 l

/-- JavaScript `String.prototype.padEnd(w, ' ')`. -/
def padEnd (s : Str) (w : Nat) : Str := s ++ List.replicate (w - s.length) ' '

/-- JavaScript `string.includes(pattern)`: the pattern occurs as a contiguous
substring. -/
def containsStr (pattern : Str) : Str → Bool
  | [] => pattern.isPrefixOf []
  | c :: rest => pattern.isPrefixOf (c :: rest) || containsStr pattern rest

/-- JavaScript `String.prototype.toLowerCase` (ASCII range, as exercised by the
case-insensitive regexes of `App.tsx`). -/
def lowerStr (l : Str) : Str := l.map Char.toLower

/-! ## Output formatter (`App.tsx`) -/

/-- Does the line contain a run of three or more consecutive whitespace
characters?  This is the test `line.match(/\s{3,}/)` in
`formatTerminalOutput`. -/
def hasWs3 : Str → Bool
  | a :: b :: c :: rest =>
    (jsIsSpace a && jsIsSpace b && jsIsSpace c) || hasWs3 (b :: c :: rest)
  | _ => false

/-- The slicing loop of `formatTerminalOutput`: cut a long line into
consecutive 80-character chunks (`line.slice(start, start + maxWidth)` with
`start += maxWidth`). -/
def chunks80 (l : Str) : List Str :=
  if h : l = [] then []
  else l.take 80 :: chunks80 (l.drop 80)
termination_by l.length
decreasing_by
  simp only [List.length_drop]
  have : 0 < l.length := List.length_pos.mpr h
  omega

/-- The per-line branch of `formatTerminalOutput`: lines with a 3+-whitespace
run or of length at most 80 pass through as a single chunk; longer lines are
cut into 80-character chunks, continuation chunks prefixed with two spaces. -/
def wrapLine (line : Str) : List Str :=
  if hasWs3 line then [line]
  else if line.length ≤ 80 then [line]
  else jsMapIdx (fun i p => if i = 0 then p else str "  " ++ p) (chunks80 line)

/-- `formatTerminalOutput` from `App.tsx`: split on newlines, wrap each line,
and join the wrapped lines back with newlines. -/
def formatTerminalOutput (text : Str) : Str :=
  joinNl ((splitChar '\n' text).flatMap wrapLine)

/-- `TerminalNote` from `App.tsx`: render a labelled note line
`• [<label padded to 8>] <text>`, truncating the text to 75 characters plus an
ellipsis when it exceeds 80, wrapping it, and indenting continuation lines by
12 columns. -/
def terminalNote (label text : Str) : Str :=
  let paddedLabel := padEnd label 8
  let displayText := if text.length > 80 then text.take 75 ++ str "..." else text
  let lines := splitChar '\n' (formatTerminalOutput displayText)
  joinNl (jsMapIdx
    (fun i line =>
      if i = 0 then str "• [" ++ paddedLabel ++ str "] " ++ line
      else List.replicate 12 ' ' ++ line)
    lines)

/-- The warning test of `TerminalOutput`: `/Warning:/i.test(line) ||
/DeprecationWarning/.test(line)`. -/
def matchesWarningLine (line : Str) : Bool :=
  containsStr (lowerStr (str "Warning:")) (lowerStr line) ||
  containsStr (str "DeprecationWarning") line

/-- The per-line classifier of `TerminalOutput` in `App.tsx`: echoed commands
get a `▶ ` marker, warning lines become `terminalNote`s, `===` banners pass
through, blank lines become empty, and everything else is indented by two
spaces. -/
def renderOutputLine (line : Str) : Str :=
  if (str "$ ").isPrefixOf line then str "▶ " ++ line.drop 2
  else if matchesWarningLine line then terminalNote (str "Warning") line
  else if (str "===").isPrefixOf line && (str "===").isSuffixOf line then line
  else if (str "===").isPrefixOf line then line
  else if trimStr line = [] then []
  else str "  " ++ line

/-- The fixed substring list of `shouldFilterOutput` in `App.tsx`. -/
def warningPatterns : List Str :=
  [str "Pyarrow will become a required dependency",
   str "The behavior will change in pandas 3.0",
   str "This inplace method will never work",
   str "DeprecationWarning",
   str "FutureWarning",
   str "Warning:",
   str "pandas",
   str "inplace method",
   str "intermediate object"]

/-- `shouldFilterOutput` from `App.tsx`: with suppression disabled nothing is
filtered; with it enabled, a chunk containing any pattern substring is
filtered. -/
def shouldFilterOutput (suppressWarnings : Bool) (text : Str) : Bool :=
  suppressWarnings && warningPatterns.any (fun p => containsStr p text)

/-- The stdout/stderr sink installed by `runAction` in `App.tsx`: a chunk that
is whitespace-only or filtered by `shouldFilterOutput` is dropped (contributes
nothing to the transcript); otherwise it is appended. -/
def sinkChunk (suppressWarnings : Bool) (t : Str) : Option Str :=
  if trimStr t = [] || shouldFilterOutput suppressWarnings t then none
  else some t

/-! ## Sandboxed interpreter singleton (`pyRunner.ts`) -/

/-- The module state of `pyRunner.ts`: `pyodideReady` holds the single
initialization future once created (futures are identified by the order of
their creation), and `created` counts how many initializations were ever
started. -/
structure PyState where
  ready : Option Nat
  created : Nat
deriving DecidableEq

/-- `loadPyodideOnce` from `pyRunner.ts`: if no initialization future exists
yet, start one (synchronously assigning it to the module variable) and return
it; otherwise return the existing future.  The body runs synchronously up to
the assignment, so each call is one atomic step of this state machine. -/
def loadPyodideOnce (st : PyState) : PyState × Nat :=
  match st.ready with
  | none => (⟨some st.created, st.created + 1⟩, st.created)
  | some f => (st, f)

/-- `ensurePyodide` from `pyRunner.ts`: await `loadPyodideOnce`, discarding the
returned interpreter. -/
def ensurePyodide (st : PyState) : PyState := (loadPyodideOnce st).1

/-- A sequence of `n` calls to `loadPyodideOnce`, collecting the future
returned by each call. -/
def pyCalls : Nat → PyState → PyState × List Nat
  | 0, st => (st, [])
  | n + 1, st =>
    let r := loadPyodideOnce st
    let rest := pyCalls n r.1
    (rest.1, r.2 :: rest.2)

/-! ## Persisted warning-suppression preference (`App.tsx`) -/

/-- The `useState` initializer for `suppressWarnings` in `App.tsx`: a missing
stored value (`null`) defaults to `true`; otherwise the stored string is
compared against the literal `"true"`. -/
def readSuppressWarnings (v : Option Str) : Bool :=
  match v with
  | none => true
  | some s => s = str "true"

/-- The persistence effect for `suppressWarnings` in `App.tsx`:
`localStorage.setItem("suppressWarnings", String(suppressWarnings))`. -/
def writeSuppressWarnings (b : Bool) : Str :=
  str (if b then "true" else "false")

/-! ## Session pool (`extension.ts` and its webview variant) -/

/-- A VS Code terminal handle: its name plus an opaque identity, modelled as
the number drawn from a fresh-handle counter at creation time. -/
structure VsTerminal where
  name : Str
  handle : Nat
deriving DecidableEq

/-- One entry of the module-level `terminals` list: a terminal together with
its `idle` flag. -/
structure PoolEntry where
  terminal : VsTerminal
  idle : Bool
deriving DecidableEq

/-- The session-pool state: the `terminals` list plus the fresh-handle counter
used to give each created terminal a distinct identity. -/
structure PoolState where
  terminals : List PoolEntry
  fresh : Nat
deriving DecidableEq

/-- Observable side effects of the extension dispatcher: opening a file in the
editor, opening a URL, surfacing a terminal, and sending command text to a
terminal. -/
inductive XEffect where
  | openFile (f : Str)
  | openUrl (u : Str)
  | showTerminal (h : Nat)
  | sendText (h : Nat) (cmd : Str)
deriving DecidableEq

/-- JavaScript `Array.prototype.findIndex`, with `none` for `-1`. -/
def findIdxA (p : α → Bool) : List α → Option Nat
  | [] => none
  | a :: l => if p a then some 0 else (findIdxA p l).map (· + 1)

/-- Write the `idle` flag of the entry at index `i` (a guarded
`terminals[i].idle = b`). -/
def setIdleAt (l : List PoolEntry) (i : Nat) (b : Bool) : List PoolEntry :=
  match l.get? i with
  | some e => l.set i { e with idle := b }
  | none => l

/-- `runCommandInTerminal` from `extension.ts` (the loop body of
`runCommandAction` in the webview variant is identical).  `live` is the name
list of `vscode.window.terminals`.  Steps: look the name up in the pool; if the
entry is stale (absent from `live`) splice it out, keeping the old index
variable; if the name was not found, create a terminal with a fresh handle and
register it idle at the end of the list; then, if the indexed entry is idle,
mark it busy, show it and send the literal command text, and if it is busy do
nothing.  Reading past the end of the spliced list (the stale-entry path)
throws in JavaScript; both the error and the ok outcome carry the pool state
and the effects performed before returning. -/
def runCommandInTerminal (command terminalName : Str) (live : List Str)
    (st : PoolState) :
    Except (PoolState × List XEffect) (PoolState × List XEffect) :=
  let idx0 := findIdxA (fun e => e.terminal.name = terminalName) st.terminals
  let ts0 :=
    match idx0 with
    | some i =>
      if live.contains terminalName then st.terminals
      else st.terminals.eraseIdx i
    | none => st.terminals
  let step : List PoolEntry × Nat × Nat :=
    match idx0 with
    | some i => (ts0, i, st.fresh)
    | none => (ts0 ++ [⟨⟨terminalName, st.fresh⟩, true⟩], ts0.length, st.fresh + 1)
  match step.1.get? step.2.1 with
  | none => .error (⟨step.1, step.2.2⟩, [])
  | some e =>
    if e.idle then
      .ok (⟨setIdleAt step.1 step.2.1 false, step.2.2⟩,
           [.showTerminal e.terminal.handle, .sendText e.terminal.handle command])
    else
      .ok (⟨step.1, step.2.2⟩, [])

/-- The `onDidEndTerminalShellExecution` handler registered by
`createTerminal`: when the command running in the terminal with handle `h`
ends, mark that pool entry idle again; if the entry is gone, do nothing. -/
def commandEnded (h : Nat) (st : PoolState) : PoolState :=
  match findIdxA (fun e => e.terminal.handle = h) st.terminals with
  | some i => ⟨setIdleAt st.terminals i true, st.fresh⟩
  | none => st

/-- The `onDidCloseTerminal` handler registered by `createTerminal`: remove
the closed terminal from the pool (regardless of its `idle` flag); if it is
not in the pool, do nothing. -/
def closeTerminal (h : Nat) (st : PoolState) : PoolState :=
  match findIdxA (fun e => e.terminal.handle = h) st.terminals with
  | some i => ⟨st.terminals.eraseIdx i, st.fresh⟩
  | none => st

/-- `runCommandAction` from the webview variant of the extension: default the
terminal name (empty or the literal string `"undefined"`) to `"ml.school"`,
then run the shared pool logic. -/
def runCommandAction (command terminalName : Str) (live : List Str)
    (st : PoolState) :
    Except (PoolState × List XEffect) (PoolState × List XEffect) :=
  runCommandInTerminal command
    (if terminalName = [] || terminalName = str "undefined" then str "ml.school"
     else terminalName)
    live st

/-- `runAction` from the webview variant of the extension: route a `command`
action to `runCommandAction`, a `browser` action to the open-URL side channel,
a `tests` action to `runTestAction` (split the target on `|`, open the trimmed
file, then run the trimmed command with the default terminal), and a `file`
action to `openFile` (which ignores an empty target).  A `tests` target with no
`|` separator throws before any effect (`command.trim()` on `undefined`). -/
def runActionX (action target terminal : Str) (live : List Str)
    (st : PoolState) :
    Except (PoolState × List XEffect) (PoolState × List XEffect) :=
  if action = str "command" then runCommandAction target terminal live st
  else if action = str "browser" then .ok (st, [.openUrl target])
  else if action = str "tests" then
    match splitChar '|' target with
    | f :: c :: _ =>
      match runCommandAction (trimStr c) (str "") live st with
      | .ok (st2, effs) => .ok (st2, .openFile (trimStr f) :: effs)
      | .error (st2, effs) => .error (st2, .openFile (trimStr f) :: effs)
    | _ => .error (st, [])
  else if action = str "file" then
    .ok (st, if target ≠ [] then [.openFile target] else [])
  else .ok (st, [])

/-! ## React dispatcher (`runAction` in `App.tsx`) -/

/-- Observable side effects of the React dispatcher: opening a URL, loading a
file into the viewer (`setCurrentFilePath`), appending text to the transcript
(`appendOutput`), and routing source text to the sandboxed execution backend
(`runPython`).  Forwarding of the backend's output chunks through the
filtering sink is modelled separately by `sinkChunk`. -/
inductive REffect where
  | openBrowser (url : Str)
  | setFile (path : Str)
  | append (text : Str)
  | runPy (code : Str)
deriving DecidableEq

/-- The environment of `runAction`: the content store behind `fetch` and the
current warning-suppression preference. -/
structure Env where
  store : Str → Str
  suppressWarnings : Bool

/-- The loading notice appended before a sandboxed run. -/
def loadingLine : Str := str "... تحميل بايثون (قد يستغرق أول تشغيل دقيقة)\n"

/-- The fixed cannot-execute diagnostic of the React dispatcher. -/
def cannotLine : Str := str "لا يمكن تنفيذ الأوامر في المتصفح\n"

/-- The warning-suppression directives prepended to the fetched source when
suppression is enabled (the template literal in `runAction`). -/
def warnHeader : Str :=
  str "\nimport warnings\nwarnings.filterwarnings(\x27ignore\x27, category=DeprecationWarning)\nwarnings.filterwarnings(\x27ignore\x27, category=FutureWarning)\nwarnings.filterwarnings(\x27ignore\x27, message=\x27.*Pyarrow.*\x27)\nwarnings.filterwarnings(\x27ignore\x27, message=\x27.*pandas.*\x27)\n"

/-- `target.replace(/^python\s+/, "")` as applied to a target that passed the
`startsWith("python ")` guard: drop the six characters of `python`, then the
whitespace run that follows. -/
def stripPythonWs (t : Str) : Str :=
  if (str "python ").isPrefixOf t then (t.drop 6).dropWhile jsIsSpace else t

/-- `runAction` from `App.tsx`, modelled up to the point where control is
handed to the sandboxed backend (the `runPy` effect; the backend's output
chunks then flow through the `sinkChunk` filter, modelled separately, and the
lesson-specific result-summary rendering touches only the editor panel).
Every branch requires a non-empty (truthy) target; a `tests` target without a
`|` separator surfaces the file and then throws (`command.trim()` on
`undefined`), which the error case records with the effects performed before
the throw. -/
def runActionR (env : Env) (kind target : Str) :
    Except (List REffect) (List REffect) :=
  if kind = str "browser" ∧ target ≠ [] then .ok [.openBrowser target]
  else if kind = str "file" ∧ target ≠ [] then .ok [.setFile target]
  else if kind = str "tests" ∧ target ≠ [] then
    match splitChar '|' target with
    | f :: c :: _ =>
      .ok [.setFile (trimStr f), .append (str "$ " ++ trimStr c ++ ['\n'])]
    | [f] => .error [.setFile (trimStr f)]
    | [] => .error []
  else if kind = str "command" ∧ target ≠ [] then
    let echo : REffect := .append (str "$ " ++ target ++ ['\n'])
    if (str "python ").isPrefixOf target then
      let code0 := env.store (stripPythonWs target)
      let code := if env.suppressWarnings then warnHeader ++ code0 else code0
      .ok [echo, .append loadingLine, .runPy code]
    else
      .ok [echo, .append cannotLine]
  else .ok []

/-! ## Table rendering (`buildTableString` in `App.tsx`) -/

/-- `String(r[i] ?? "")`: the cell of row `r` in column `i`, empty when the
row is too short. -/
def cellAt (r : List Str) (i : Nat) : Str := (r.get? i).getD []

/-- The per-column widths of `buildTableString`:
`Math.max(h.length, ...cells.map(c => c.length)) + padding * 2` with
`padding = 1`. -/
def colWidths (headers : List Str) (rows : List (List Str)) : List Nat :=
  jsMapIdx
    (fun i h =>
      rows.foldl (fun m r => Nat.max m (cellAt r i).length) h.length + 2)
    headers

/-- The common shape of every rendered table line: a left character, segments
joined by a middle character, and a right character. -/
def rowOf (l m r : Char) (segs : List Str) : Str :=
  [l] ++ joinSep [m] segs ++ [r]

/-- The `line` helper of `buildTableString`: corner/junction characters around
`─` runs of the column widths. -/
def borderLine (l m r : Char) (ws : List Nat) : Str :=
  rowOf l m r (ws.map (fun w => List.replicate w '─'))

/-- One header cell: `` ` ${h} ` ``  padded to the column width. -/
def headCell (h : Str) (w : Nat) : Str := padEnd ([' '] ++ h ++ [' ']) w

/-- The header row of `buildTableString`. -/
def headLine (headers : List Str) (ws : List Nat) : Str :=
  rowOf '│' '│' '│' (List.zipWith headCell headers ws)

/-- One body cell: `(" " + String(c))` padded to the column width. -/
def bodyCell (c : Str) (w : Nat) : Str := padEnd ([' '] ++ c) w

/-- One body row of `buildTableString`. -/
def bodyLine (row : List Str) (ws : List Nat) : Str :=
  rowOf '│' '│' '│' (List.zipWith bodyCell row ws)

/-- The separator row `├┼┤` of `buildTableString`. -/
def midLine (ws : List Nat) : Str := borderLine '├' '┼' '┤' ws

/-- The `body` expression of `buildTableString`: every row except the last is
followed by a newline and a separator row, and the results are joined with
newlines. -/
def bodyBlock (rows : List (List Str)) (ws : List Nat) : Str :=
  joinNl (jsMapIdx
    (fun ri row =>
      if ri < rows.length - 1 then bodyLine row ws ++ ['\n'] ++ midLine ws
      else bodyLine row ws)
    rows)

/-- `buildTableString` from `App.tsx`: top border, header row, separator,
body block and bottom border joined with newlines. -/
def buildTableString (headers : List Str) (rows : List (List Str)) : Str :=
  let ws := colWidths headers rows
  joinNl [borderLine '┌' '┬' '┐' ws, headLine headers ws, midLine ws,
          bodyBlock rows ws, borderLine '└' '┴' '┘' ws]

/-- The rendered lines of a table with at least one row: the newline-joined
pieces of `buildTableString`, with the separator row standing between each
pair of adjacent body rows. -/
def tableLines (headers : List Str) (rows : List (List Str)) : List Str :=
  let ws := colWidths headers rows
  [borderLine '┌' '┬' '┐' ws, headLine headers ws, midLine ws] ++
    List.intersperse (midLine ws) (rows.map (fun r => bodyLine r ws)) ++
    [borderLine '└' '┴' '┘' ws]

/-- The box-drawing characters used by `buildTableString` as column
separators and corners. -/
def boxChars : List Char := ['┌', '┬', '┐', '├', '┼', '┤', '└', '┴', '┘', '│']

/-- The character position of the `k`-th column separator in a rendered table
line: `k` separator characters and the first `k` column widths precede it. -/
def sepPos (ws : List Nat) (k : Nat) : Nat := k + ((ws.take k).sum)

/-- The claim's recovery operation: remove the two-space continuation prefix
from every chunk after the first and concatenate the chunks in order. -/
def unwrapChunks (parts : List Str) : Str :=
  (jsMapIdx (fun i p => if i = 0 then p else p.drop 2) parts).join

/-- A concrete environment for the React dispatcher: an empty content store
and suppression enabled. -/
def envCex : Env := ⟨fun _ => [], true⟩

/-! ## Helper lemmas -/

lemma splitChar_eq_single {sep : Char} {l : Str} (h : sep ∉ l) :
    splitChar sep l = [l] := by
  induction l with
  | nil => rfl
  | cons c cs ih =>
    have hc : ¬ c = sep := by
      intro e
      exact h (e ▸ List.mem_cons_self c cs)
    have hcs : sep ∉ cs := fun m => h (List.mem_cons_of_mem _ m)
    rw [show splitChar sep (c :: cs) =
          (match splitChar sep cs with
           | [] => if c = sep then [[], []] else [[c]]
           | h :: t => if c = sep then [] :: h :: t else (c :: h) :: t) from rfl,
        ih hcs]
    simp [hc]

lemma mapIdxFrom_comp (f g : Nat → α → α) (k : Nat) :
    ∀ l : List α, mapIdxFrom f k (mapIdxFrom g k l) =
      mapIdxFrom (fun i a => f i (g i a)) k l := by
  intro l
  induction l generalizing k with
  | nil => rfl
  | cons a l ih => simp [mapIdxFrom, ih]

lemma mapIdxFrom_congr_id (f : Nat → α → α) (k : Nat) (l : List α)
    (h : ∀ i a, f i a = a) : mapIdxFrom f k l = l := by
  induction l generalizing k with
  | nil => rfl
  | cons a l ih => simp [mapIdxFrom, h, ih]

lemma chunks80_join : ∀ l : Str, (chunks80 l).join = l := by
  intro l
  induction l using chunks80.induct with
  | case1 => simp [chunks80]
  | case2 l hne ih =>
    rw [chunks80, dif_neg hne]
    simp [List.join, ih]

lemma mapIdxFrom_length (f : Nat → α → β) (k : Nat) :
    ∀ l : List α, (mapIdxFrom f k l).length = l.length := by
  intro l
  induction l generalizing k with
  | nil => rfl
  | cons a l ih => simp [mapIdxFrom, ih]

lemma mapIdxFrom_get? (f : Nat → α → β) :
    ∀ (l : List α) (k i : Nat),
      (mapIdxFrom f k l).get? i = (l.get? i).map (f (k + i)) := by
  intro l
  induction l with
  | nil => intro k i; rfl
  | cons a l ih =>
    intro k i
    cases i with
    | zero => rfl
    | succ j =>
      have hk : k + (j + 1) = (k + 1) + j := by omega
      rw [hk]
      exact ih (k + 1) j

/-! ## C5: the interpreter singleton -/

lemma pyCalls_stable (f k : Nat) : ∀ n, pyCalls n ⟨some f, k⟩ = (⟨some f, k⟩, List.replicate n f)
  | 0 => rfl
  | n + 1 => by simp [pyCalls, loadPyodideOnce, pyCalls_stable f k n, List.replicate_succ]

/-- C5: over any sequence of calls starting from the initial module state of
`pyRunner.ts`, the first call to `loadPyodideOnce` creates the single
initialization future (future `0`), every later call — including calls made
before that initialization completes, since the future is assigned to the
module variable synchronously — returns that same future, and the count of
initializations ever started stays at one. -/
theorem loadPyodideOnce_singleton_spec (n : Nat) (h : 1 ≤ n) :
    pyCalls n ⟨none, 0⟩ = (⟨some 0, 1⟩, List.replicate n 0) := by
  cases n with
  | zero => omega
  | succ m => simp [pyCalls, loadPyodideOnce, pyCalls_stable, List.replicate_succ]

/-- Witness for C5 at a concrete call count. -/
theorem loadPyodideOnce_singleton_spec_witness :
    pyCalls 3 ⟨none, 0⟩ = (⟨some 0, 1⟩, List.replicate 3 0) :=
  loadPyodideOnce_singleton_spec 3 (by decide)

/-! ## C9: the persisted warning-suppression preference -/

/-- C9 counterexample: a corrupt stored value (any string other than
`"true"`) is read back as `false`, not as the default `true` the claim
requires. -/
theorem readSuppressWarnings_corrupt_cex :
    readSuppressWarnings (some (str "corrupt")) = false ∧
    readSuppressWarnings (some (str "corrupt")) ≠ true := by decide

/-- C9 amended: the preference defaults to `true` when no value is stored,
a store/read round trip preserves any boolean, and any stored value other
than the literal `"true"` — corrupt values included — is read back as
`false`. -/
theorem suppressWarnings_roundtrip_amended :
    readSuppressWarnings none = true ∧
    (∀ b, readSuppressWarnings (some (writeSuppressWarnings b)) = b) ∧
    (∀ v, v ≠ str "true" → readSuppressWarnings (some v) = false) := by
  refine ⟨rfl, fun b => by cases b <;> decide, fun v hv => ?_⟩
  simpa [readSuppressWarnings] using hv

/-- Witness for C9 (amended) at a concrete corrupt value. -/
theorem suppressWarnings_roundtrip_amended_witness :
    readSuppressWarnings (some (str "day")) = false :=
  suppressWarnings_roundtrip_amended.2.2 (str "day") (by decide)

/-! ## C8: wrapping short or pre-aligned lines is the identity -/

/-- C8: for a line (no embedded newline) that contains a run of three or more
whitespace characters, or that is at most 80 characters long, the wrapping
function returns the line unchanged; it is therefore idempotent on such
lines. -/
theorem formatTerminalOutput_short_identity_spec (l : Str)
    (hnl : '\n' ∉ l) (h : hasWs3 l = true ∨ l.length ≤ 80) :
    formatTerminalOutput l = l ∧
    formatTerminalOutput (formatTerminalOutput l) = formatTerminalOutput l := by
  have hw : wrapLine l = [l] := by
    rcases h with h | h
    · simp [wrapLine, h]
    · by_cases hws : hasWs3 l <;> simp [wrapLine, hws, h]
  have hid : formatTerminalOutput l = l := by
    simp [formatTerminalOutput, splitChar_eq_single hnl, hw, joinNl, joinSep]
  exact ⟨hid, by rw [hid]; exact hid⟩

/-- Witness for C8 at a concrete short line. -/
theorem formatTerminalOutput_short_identity_spec_witness :
    formatTerminalOutput (str "hello world") = str "hello world" :=
  (formatTerminalOutput_short_identity_spec (str "hello world") (by decide)
    (Or.inr (by decide))).1

/-! ## C10: wrapping is lossless -/

/-- C10: for every line with no run of three or more whitespace characters,
removing the continuation prefixes from the chunks produced by the wrapping
function and concatenating them recovers the line exactly; for a line with no
embedded newline, `formatTerminalOutput` is exactly the newline-join of these
chunks. -/
theorem wrapLine_lossless_spec (l : Str) (h : hasWs3 l = false) :
    unwrapChunks (wrapLine l) = l ∧
    ('\n' ∉ l → formatTerminalOutput l = joinNl (wrapLine l)) := by
  constructor
  · by_cases hlen : l.length ≤ 80
    · simp [wrapLine, h, hlen, unwrapChunks, jsMapIdx, mapIdxFrom, List.join]
    · simp only [wrapLine, h, hlen, if_false, Bool.false_eq_true, if_neg]
      unfold unwrapChunks jsMapIdx
      rw [mapIdxFrom_comp, mapIdxFrom_congr_id, chunks80_join]
      intro i a
      cases i with
      | zero => rfl
      | succ j => simp [str]
  · intro hnl
    simp [formatTerminalOutput, splitChar_eq_single hnl]

/-- Witness for C10 at a concrete 100-character line. -/
theorem wrapLine_lossless_spec_witness :
    hasWs3 (List.replicate 100 'a') = false ∧
    unwrapChunks (wrapLine (List.replicate 100 'a')) = List.replicate 100 'a' :=
  ⟨by decide, (wrapLine_lossless_spec (List.replicate 100 'a') (by decide)).1⟩

/-! ## C6: warning filtering and warning classification -/

/-- C6 counterexample: the chunk `"$ Warning: x"` matches the classifier's
warning pattern, but because the echo rule is applied first it is rendered as
an echoed command, not as a formatted warning note. -/
theorem warning_classifier_echo_precedence_cex :
    matchesWarningLine (str "$ Warning: x") = true ∧
    renderOutputLine (str "$ Warning: x") ≠
      terminalNote (str "Warning") (str "$ Warning: x") := by decide

/-- C6 amended: with suppression enabled, a chunk containing any of the fixed
pattern substrings (the literal `"FutureWarning"` included) is dropped
entirely by the sink; with suppression disabled the filter drops nothing; and
a chunk whose line matches the warning pattern and does not begin with the
echo marker `"$ "` is rendered as a formatted warning note. -/
theorem warning_filter_amended (chunk : Str) :
    (warningPatterns.any (fun p => containsStr p chunk) = true →
      sinkChunk true chunk = none) ∧
    (containsStr (str "FutureWarning") chunk = true → sinkChunk true chunk = none) ∧
    shouldFilterOutput false chunk = false ∧
    (matchesWarningLine chunk = true → (str "$ ").isPrefixOf chunk = false →
      renderOutputLine chunk = terminalNote (str "Warning") chunk) := by
    refine ⟨fun hany => ?_, fun hfw => ?_, by simp [shouldFilterOutput], fun hm hp => ?_⟩
    · simp [sinkChunk, shouldFilterOutput, hany]
    · have hany : warningPatterns.any (fun p => containsStr p chunk) = true :=
        List.any_eq_true.mpr ⟨str "FutureWarning", by simp [warningPatterns], hfw⟩
      simp [sinkChunk, shouldFilterOutput, hany]
    · simp [renderOutputLine, hp, hm]

/-- Witness for C6 (amended) at concrete chunks. -/
theorem warning_filter_amended_witness :
    sinkChunk true (str "FutureWarning: deprecated") = none ∧
    renderOutputLine (str "UserWarning: check") =
      terminalNote (str "Warning") (str "UserWarning: check") :=
  ⟨(warning_filter_amended (str "FutureWarning: deprecated")).2.1 (by decide),
   (warning_filter_amended (str "UserWarning: check")).2.2.2 (by decide) (by decide)⟩

/-! ## Session pool lemmas -/

lemma findIdxA_spec (p : α → Bool) :
    ∀ (l : List α) (i : Nat), findIdxA p l = some i →
      ∃ a, l[i]? = some a ∧ p a = true := by
  intro l
  induction l with
  | nil => intro i h; simp [findIdxA] at h
  | cons x xs ih =>
    intro i h
    by_cases hpx : p x
    · simp [findIdxA, hpx] at h
      exact h ▸ ⟨x, by simp, hpx⟩
    · simp [findIdxA, hpx] at h
      obtain ⟨j, hj, rfl⟩ := h
      obtain ⟨a, ha, hpa⟩ := ih j hj
      exact ⟨a, by simpa using ha, hpa⟩

lemma findIdxA_set (p : α → Bool) :
    ∀ (l : List α) (i : Nat) (a : α), findIdxA p l = some i → p a = true →
      findIdxA p (l.set i a) = some i := by
  intro l
  induction l with
  | nil => intro i a h _; simp [findIdxA] at h
  | cons x xs ih =>
    intro i a h hpa
    by_cases hpx : p x
    · simp [findIdxA, hpx] at h
      subst h
      simp [List.set, findIdxA, hpa]
    · simp [findIdxA, hpx] at h
      obtain ⟨j, hj, rfl⟩ := h
      simp [List.set, findIdxA, hpx, ih j a hj hpa]

lemma get?_set_self : ∀ (l : List α) (i : Nat) (a b : α),
    l[i]? = some a → (l.set i b)[i]? = some b := by
  intro l
  induction l with
  | nil => intro i a b h; simp at h
  | cons x xs ih =>
    intro i a b h
    cases i with
    | zero => simp [List.set]
    | succ j =>
      simp only [List.set, List.getElem?_cons_succ]
      exact ih j a b (by simpa using h)

lemma findIdxA_eq_none (p : α → Bool) :
    ∀ l : List α, (∀ a ∈ l, p a = false) → findIdxA p l = none := by
  intro l
  induction l with
  | nil => intro _; rfl
  | cons x xs ih =>
    intro h
    have hx := h x (List.mem_cons_self x xs)
    simp [findIdxA, hx, ih fun a ha => h a (List.mem_cons_of_mem _ ha)]

lemma get?_concat_self : ∀ (l : List α) (a : α), (l ++ [a])[l.length]? = some a := by
  intro l a
  induction l with
  | nil => simp
  | cons x xs ih => simpa using ih

lemma set_concat_self : ∀ (l : List α) (a b : α),
    (l ++ [a]).set l.length b = l ++ [b] := by
  intro l a b
  induction l with
  | nil => rfl
  | cons x xs ih => simp [List.set, ih]

/-! ## C1: send to an idle or busy session -/

/-- C1: for every pool state and session name present in the pool and in the
live-terminal registry — a send to that session while it is idle marks it
busy and forwards the literal command text (showing the terminal and sending
the command), a send while it is busy leaves the pool state unchanged and
performs no side effect, and in particular of two back-to-back sends to the
same name with no command-ended signal in between, the second is rejected
with the pool state unchanged. -/
theorem sendCommand_idle_busy_spec
    (st : PoolState) (live : List Str) (n cmd cmd2 : Str) (i : Nat) (e : PoolEntry)
    (hlive : live.contains n = true)
    (hfind : findIdxA (fun x => x.terminal.name = n) st.terminals = some i)
    (hget : st.terminals[i]? = some e) :
    (e.idle = true →
      runCommandInTerminal cmd n live st =
        .ok (⟨st.terminals.set i ⟨e.terminal, false⟩, st.fresh⟩,
             [.showTerminal e.terminal.handle, .sendText e.terminal.handle cmd])) ∧
    (e.idle = false → runCommandInTerminal cmd n live st = .ok (st, [])) ∧
    (e.idle = true →
      runCommandInTerminal cmd2 n live
        ⟨st.terminals.set i ⟨e.terminal, false⟩, st.fresh⟩ =
        .ok (⟨st.terminals.set i ⟨e.terminal, false⟩, st.fresh⟩, [])) := by
  have hmem : n ∈ live := by simpa using hlive
  refine ⟨fun hidle => ?_, fun hidle => ?_, fun hidle => ?_⟩
  · simp [runCommandInTerminal, hfind, hmem, hget, hidle, setIdleAt]
  · simp [runCommandInTerminal, hfind, hmem, hget, hidle]
  · have hname : e.terminal.name = n := by
      obtain ⟨a, ha, hpa⟩ := findIdxA_spec _ _ _ hfind
      rw [hget] at ha
      cases ha
      exact of_decide_eq_true hpa
    have hfind2 : findIdxA (fun x => x.terminal.name = n)
        (st.terminals.set i ⟨e.terminal, false⟩) = some i :=
      findIdxA_set _ _ _ _ hfind (decide_eq_true hname)
    have hget2 : (st.terminals.set i ⟨e.terminal, false⟩)[i]? =
        some (⟨e.terminal, false⟩ : PoolEntry) := get?_set_self _ _ _ _ hget
    simp [runCommandInTerminal, hfind2, hmem, hget2]

/-- Witness for C1 at a concrete one-session pool. -/
theorem sendCommand_idle_busy_spec_witness :
    runCommandInTerminal (str "ls") (str "t") [str "t"] ⟨[⟨⟨str "t", 0⟩, true⟩], 1⟩ =
      .ok (⟨[⟨⟨str "t", 0⟩, false⟩], 1⟩, [.showTerminal 0, .sendText 0 (str "ls")]) ∧
    runCommandInTerminal (str "pwd") (str "t") [str "t"] ⟨[⟨⟨str "t", 0⟩, false⟩], 1⟩ =
      .ok (⟨[⟨⟨str "t", 0⟩, false⟩], 1⟩, []) := by
  have h := sendCommand_idle_busy_spec ⟨[⟨⟨str "t", 0⟩, true⟩], 1⟩ [str "t"]
    (str "t") (str "ls") (str "pwd") 0 ⟨⟨str "t", 0⟩, true⟩
    (by decide) (by decide) (by decide)
  exact ⟨h.1 rfl, h.2.2 rfl⟩

/-! ## C2: session close removes the session; later uses start fresh -/

/-- C2: a session-closed signal for the terminal with handle `h` removes its
pool entry regardless of the busy flag (the definition never examines
`idle`); a subsequent send for a name with no pool entry registers a
brand-new entry (fresh handle, registered idle, then immediately marked busy
by the send) and addresses only that new handle; the fresh handle differs
from every handle in the pool (in reachable states all handles are below the
counter); and a command-ended signal for a terminal with no pool entry is a
no-op. -/
theorem sessionClosed_removal_spec
    (st : PoolState) (h i : Nat) (n cmd : Str) (live : List Str) :
    (findIdxA (fun e => e.terminal.handle = h) st.terminals = some i →
      closeTerminal h st = ⟨st.terminals.eraseIdx i, st.fresh⟩) ∧
    ((∀ e ∈ st.terminals, e.terminal.name ≠ n) →
      runCommandInTerminal cmd n live st =
        .ok (⟨st.terminals ++ [⟨⟨n, st.fresh⟩, false⟩], st.fresh + 1⟩,
             [.showTerminal st.fresh, .sendText st.fresh cmd])) ∧
    ((∀ e ∈ st.terminals, e.terminal.handle < st.fresh) →
      ∀ e ∈ st.terminals, e.terminal.handle ≠ st.fresh) ∧
    ((∀ e ∈ st.terminals, e.terminal.handle ≠ h) → commandEnded h st = st) := by
  refine ⟨fun hfind => ?_, fun habsent => ?_, fun hbound e he => ?_, fun habsent => ?_⟩
  · simp [closeTerminal, hfind]
  · have hnone : findIdxA (fun x => x.terminal.name = n) st.terminals = none :=
      findIdxA_eq_none _ _ fun a ha => decide_eq_false (habsent a ha)
    simp [runCommandInTerminal, hnone, get?_concat_self, setIdleAt, set_concat_self]
  · exact Nat.ne_of_lt (hbound e he)
  · have hnone : findIdxA (fun x => x.terminal.handle = h) st.terminals = none :=
      findIdxA_eq_none _ _ fun a ha => decide_eq_false (habsent a ha)
    simp [commandEnded, hnone]

/-- Witness for C2 at concrete pool states. -/
theorem sessionClosed_removal_spec_witness :
    closeTerminal 0 ⟨[⟨⟨str "a", 0⟩, false⟩], 1⟩ = ⟨[], 1⟩ ∧
    runCommandInTerminal (str "ls") (str "b") [] ⟨[⟨⟨str "a", 0⟩, false⟩], 1⟩ =
      .ok (⟨[⟨⟨str "a", 0⟩, false⟩, ⟨⟨str "b", 1⟩, false⟩], 2⟩,
           [.showTerminal 1, .sendText 1 (str "ls")]) ∧
    commandEnded 7 ⟨[⟨⟨str "a", 0⟩, false⟩], 1⟩ = ⟨[⟨⟨str "a", 0⟩, false⟩], 1⟩ := by
  have h1 := sessionClosed_removal_spec ⟨[⟨⟨str "a", 0⟩, false⟩], 1⟩ 0 0 (str "b") (str "ls") []
  have h2 := sessionClosed_removal_spec ⟨[⟨⟨str "a", 0⟩, false⟩], 1⟩ 7 0 (str "b") (str "ls") []
  exact ⟨h1.1 (by decide), h1.2.1 (by decide), h2.2.2.2 (by decide)⟩

/-! ## C3: the tests action -/

/-- C3 counterexample: in the React dispatcher (`runAction` in `App.tsx`) the
tests action `"a.py | run a.py"` surfaces the file and emits the command echo
line, but then returns — a command action with target `"run a.py"` would in
addition emit the cannot-execute diagnostic, so the tests dispatch does not
behave identically to a command dispatch after the file side effect. -/
theorem testsAction_not_command_equiv_cex :
    runActionR envCex (str "tests") (str "a.py | run a.py") =
      .ok [.setFile (str "a.py"), .append (str "$ run a.py\n")] ∧
    runActionR envCex (str "command") (str "run a.py") =
      .ok [.append (str "$ run a.py\n"), .append cannotLine] ∧
    runActionR envCex (str "tests") (str "a.py | run a.py") ≠
      .ok (REffect.setFile (str "a.py") ::
           [REffect.append (str "$ run a.py\n"), REffect.append cannotLine]) := by
  refine ⟨by decide, by decide, by decide⟩

/-- C3 amended: in the extension dispatcher (`runAction`/`runTestAction` in
the webview variant), a well-formed tests action first forwards the trimmed
file part to the file side-channel and then behaves identically to
dispatching a command action whose target is the trimmed command part (with
the default terminal); the React dispatcher instead surfaces the trimmed file
part and emits the echo line for the trimmed command part, performing no
execution and emitting no diagnostic. -/
theorem testsAction_dispatch_amended (env : Env) (target f c term : Str)
    (live : List Str) (st : PoolState)
    (hsplit : splitChar '|' target = [f, c]) :
    runActionX (str "tests") target term live st =
      (match runActionX (str "command") (trimStr c) (str "") live st with
       | .ok (st2, effs) => .ok (st2, XEffect.openFile (trimStr f) :: effs)
       | .error (st2, effs) => .error (st2, XEffect.openFile (trimStr f) :: effs)) ∧
    runActionR env (str "tests") target =
      .ok [.setFile (trimStr f), .append (str "$ " ++ trimStr c ++ ['\n'])] := by
  have hne : target ≠ [] := by
    intro h
    rw [h] at hsplit
    simp [splitChar] at hsplit
  have t1 : ¬ str "tests" = str "command" := by decide
  have t2 : ¬ str "tests" = str "browser" := by decide
  have t3 : ¬ str "tests" = str "file" := by decide
  constructor
  · have h2 : runActionX (str "command") (trimStr c) (str "") live st =
        runCommandAction (trimStr c) (str "") live st := by
      simp [runActionX]
    rw [h2]
    simp [runActionX, hsplit, t1, t2]
  · simp [runActionR, hsplit, hne, t1, t2, t3]

/-- Witness for C3 (amended) at a concrete pool and target. -/
theorem testsAction_dispatch_amended_witness :
    runActionX (str "tests") (str "a.py | run a.py") (str "x") [] ⟨[], 0⟩ =
      .ok (⟨[⟨⟨str "ml.school", 0⟩, false⟩], 1⟩,
           [.openFile (str "a.py"), .showTerminal 0, .sendText 0 (str "run a.py")]) := by
  have h := testsAction_dispatch_amended envCex (str "a.py | run a.py")
    (str "a.py ") (str " run a.py") (str "x") [] ⟨[], 0⟩ (by decide)
  rw [h.1]
  decide

/-! ## C4: the command action -/

/-- C4: for every non-empty command target, the React dispatcher first emits
the echo line `"$ " + target`; if the target begins with the case-sensitive
prefix `"python "` it strips the prefix (the whole leading whitespace run, so
exactly the seven-character prefix whenever no extra whitespace follows),
fetches the referenced source from the content store, prepends the
warning-suppression directives exactly when suppression is enabled, and
routes the result to the sandboxed backend; for any other non-empty target it
emits the fixed cannot-execute diagnostic line and performs no execution. -/
theorem commandAction_dispatch_spec (env : Env) (target : Str)
    (hne : target ≠ []) :
    (∃ rest, runActionR env (str "command") target =
        .ok (REffect.append (str "$ " ++ target ++ ['\n']) :: rest)) ∧
    ((str "python ").isPrefixOf target = true →
      runActionR env (str "command") target =
        .ok [.append (str "$ " ++ target ++ ['\n']), .append loadingLine,
             .runPy (if env.suppressWarnings
                     then warnHeader ++ env.store (stripPythonWs target)
                     else env.store (stripPythonWs target))]) ∧
    ((str "python ").isPrefixOf target = false →
      runActionR env (str "command") target =
        .ok [.append (str "$ " ++ target ++ ['\n']), .append cannotLine]) ∧
    (∀ rest2, target = str "python " ++ rest2 →
      rest2.dropWhile jsIsSpace = rest2 → stripPythonWs target = rest2) := by
  have t1 : ¬ str "command" = str "browser" := by decide
  have t2 : ¬ str "command" = str "file" := by decide
  have t3 : ¬ str "command" = str "tests" := by decide
  have hpos : (str "python ").isPrefixOf target = true →
      runActionR env (str "command") target =
        .ok [.append (str "$ " ++ target ++ ['\n']), .append loadingLine,
             .runPy (if env.suppressWarnings
                     then warnHeader ++ env.store (stripPythonWs target)
                     else env.store (stripPythonWs target))] := fun hpy => by
    simp [runActionR, hne, hpy, t1, t2, t3]
  have hneg : (str "python ").isPrefixOf target = false →
      runActionR env (str "command") target =
        .ok [.append (str "$ " ++ target ++ ['\n']), .append cannotLine] := fun hpy => by
    simp [runActionR, hne, hpy, t1, t2, t3]
  refine ⟨?_, hpos, hneg, fun rest2 htgt hws => ?_⟩
  · by_cases hpy : (str "python ").isPrefixOf target = true
    · exact ⟨_, hpos hpy⟩
    · exact ⟨_, hneg (Bool.eq_false_iff.mpr hpy)⟩
  · subst htgt
    have hpre : (str "python ").isPrefixOf (str "python " ++ rest2) = true := by
      simp [List.isPrefixOf_iff_prefix]
    simp only [stripPythonWs, hpre, if_true]
    show List.dropWhile jsIsSpace (' ' :: rest2) = rest2
    rw [List.dropWhile_cons]
    simp [jsIsSpace, hws]

set_option maxRecDepth 10000 in
/-- Witness for C4 at a concrete store and python target. -/
theorem commandAction_dispatch_spec_witness :
    runActionR ⟨fun _ => str "print(1)", true⟩ (str "command") (str "python demo.py") =
      .ok [.append (str "$ python demo.py\n"), .append loadingLine,
           .runPy (warnHeader ++ str "print(1)")] := by
  have h := commandAction_dispatch_spec ⟨fun _ => str "print(1)", true⟩
    (str "python demo.py") (by decide)
  have h2 := h.2.1 (by decide)
  rw [h2]
  decide

/-! ## C7: table rendering -/

lemma joinSep1_length (m : Char) :
    ∀ xs : List Str, (joinSep [m] xs).length =
      (xs.map List.length).sum + (xs.length - 1)
  | [] => rfl
  | [x] => by simp [joinSep]
  | x :: y :: l => by
    have ih := joinSep1_length m (y :: l)
    show (x ++ [m] ++ joinSep [m] (y :: l)).length = _
    rw [List.length_append, List.length_append, ih]
    simp only [List.map_cons, List.sum_cons, List.length_cons,
      List.length_singleton, List.length_nil]
    omega

lemma joinSep_cons_of_ne_nil (sep x : Str) {xs : List Str} (h : xs ≠ []) :
    joinSep sep (x :: xs) = x ++ sep ++ joinSep sep xs := by
  obtain ⟨y, ys, rfl⟩ := List.exists_cons_of_ne_nil h
  rfl

lemma joinSep_append (sep : Str) :
    ∀ (xs ys : List Str), xs ≠ [] → ys ≠ [] →
      joinSep sep (xs ++ ys) = joinSep sep xs ++ sep ++ joinSep sep ys
  | [], _, hx, _ => absurd rfl hx
  | [x], ys, _, hy => by
    rw [List.singleton_append, joinSep_cons_of_ne_nil sep x hy]
    rfl
  | x :: x' :: xs', ys, _, hy => by
    have ih := joinSep_append sep (x' :: xs') ys (by simp) hy
    rw [List.cons_append] at ih
    show x ++ sep ++ joinSep sep (x' :: (xs' ++ ys)) =
      (x ++ sep ++ joinSep sep (x' :: xs')) ++ sep ++ joinSep sep ys
    rw [ih]
    simp [List.append_assoc]

lemma joinSep_flatten_mid (sep : Str) (pre post bl : List Str) (hbl : bl ≠ []) :
    joinSep sep (pre ++ joinSep sep bl :: post) = joinSep sep (pre ++ bl ++ post) := by
  rcases pre with _ | ⟨p, pre'⟩ <;> rcases post with _ | ⟨q, post'⟩
  · rw [List.nil_append, List.nil_append, List.append_nil]
    rfl
  · rw [List.nil_append, List.nil_append,
      joinSep_cons_of_ne_nil sep _ (List.cons_ne_nil q post'),
      joinSep_append sep bl (q :: post') hbl (List.cons_ne_nil q post')]
  · rw [List.append_nil]
    rw [joinSep_append sep (p :: pre') [joinSep sep bl] (List.cons_ne_nil p pre') (by simp),
      joinSep_append sep (p :: pre') bl (List.cons_ne_nil p pre') hbl]
    rfl
  · rw [joinSep_append sep (p :: pre') (joinSep sep bl :: q :: post')
      (List.cons_ne_nil p pre') (by simp),
      joinSep_cons_of_ne_nil sep _ (List.cons_ne_nil q post'),
      List.append_assoc (p :: pre') bl (q :: post'),
      joinSep_append sep (p :: pre') (bl ++ q :: post') (List.cons_ne_nil p pre')
        (by simp [hbl]),
      joinSep_append sep bl (q :: post') hbl (List.cons_ne_nil q post')]

lemma padEnd_length_of_le {s : Str} {w : Nat} (h : s.length ≤ w) :
    (padEnd s w).length = w := by
  simp only [padEnd, List.length_append, List.length_replicate]
  omega

lemma rowOf_length (l m r : Char) (segs : List Str) :
    (rowOf l m r segs).length = (segs.map List.length).sum + (segs.length - 1) + 2 := by
  simp only [rowOf, List.length_append, joinSep1_length, List.length_singleton]
  omega

lemma le_foldlMax (g : α → Nat) :
    ∀ (l : List α) (a : Nat), a ≤ l.foldl (fun m x => Nat.max m (g x)) a
  | [], a => le_refl a
  | x :: xs, a => le_trans (Nat.le_max_left a (g x)) (le_foldlMax g xs _)

lemma mem_le_foldlMax (g : α → Nat) :
    ∀ (l : List α) (a : Nat) (x : α), x ∈ l →
      g x ≤ l.foldl (fun m y => Nat.max m (g y)) a
  | [], _, _, hx => absurd hx (List.not_mem_nil _)
  | y :: ys, a, x, hx => by
    rcases List.mem_cons.mp hx with rfl | hx'
    · exact le_trans (Nat.le_max_right a (g x)) (le_foldlMax g ys _)
    · exact mem_le_foldlMax g ys _ x hx'

lemma foldlMax_eq (g : α → Nat) :
    ∀ (l : List α) (a : Nat),
      l.foldl (fun m x => Nat.max m (g x)) a = Nat.max a ((l.map g).foldr Nat.max 0)
  | [], a => by simp
  | x :: xs, a => by
    simp only [List.foldl_cons, List.map_cons, List.foldr_cons]
    rw [foldlMax_eq g xs (Nat.max a (g x))]
    exact Nat.max_assoc a (g x) _

lemma colWidths_length (headers : List Str) (rows : List (List Str)) :
    (colWidths headers rows).length = headers.length := by
  simp [colWidths, jsMapIdx, mapIdxFrom_length]

lemma mapIdxFrom_getElem? (f : Nat → α → β) :
    ∀ (l : List α) (k i : Nat), (mapIdxFrom f k l)[i]? = (l[i]?).map (f (k + i)) := by
  intro l
  induction l with
  | nil => intro k i; simp [mapIdxFrom]
  | cons a l ih =>
    intro k i
    cases i with
    | zero => simp [mapIdxFrom]
    | succ j =>
      simp only [mapIdxFrom, List.getElem?_cons_succ]
      have hk : k + (j + 1) = (k + 1) + j := by omega
      rw [hk]
      exact ih (k + 1) j

lemma colWidths_getElem? (headers : List Str) (rows : List (List Str))
    (i : Nat) (h : Str) (hh : headers[i]? = some h) :
    (colWidths headers rows)[i]? =
      some (rows.foldl (fun m r => Nat.max m (cellAt r i).length) h.length + 2) := by
  simp [colWidths, jsMapIdx, mapIdxFrom_getElem?, hh]

lemma forall₂_mapIdxFrom (P : α → β → Prop) (f : Nat → α → β)
    (hf : ∀ i a, P a (f i a)) :
    ∀ (l : List α) (k : Nat), List.Forall₂ P l (mapIdxFrom f k l)
  | [], _ => List.Forall₂.nil
  | a :: l, k => List.Forall₂.cons (hf k a) (forall₂_mapIdxFrom P f hf l (k + 1))

lemma forall₂_headers_colWidths (headers : List Str) (rows : List (List Str)) :
    List.Forall₂ (fun h w => h.length + 2 ≤ w) headers (colWidths headers rows) := by
  apply forall₂_mapIdxFrom
  intro i h
  have := le_foldlMax (fun r => (cellAt r i).length) rows h.length
  omega

lemma forall₂_row_colWidths (headers : List Str) (rows : List (List Str))
    (row : List Str) (hmem : row ∈ rows) (hlen : row.length = headers.length) :
    List.Forall₂ (fun c w => c.length + 1 ≤ w) row (colWidths headers rows) := by
  apply List.forall₂_of_length_eq_of_get (by rw [colWidths_length, hlen])
  intro i h1 h2
  have hi : i < headers.length := by rwa [colWidths_length] at h2
  have hh : headers[i]? = some (headers.get ⟨i, hi⟩) := by
    simp [List.getElem?_eq_getElem hi, List.get_eq_getElem]
  have hcw := colWidths_getElem? headers rows i _ hh
  have hcw2 : (colWidths headers rows).get ⟨i, h2⟩ =
      rows.foldl (fun m r => Nat.max m (cellAt r i).length)
        (headers.get ⟨i, hi⟩).length + 2 := by
    have := List.getElem?_eq_getElem h2
    rw [List.get_eq_getElem]
    rw [this] at hcw
    exact Option.some.inj hcw
  have hcell : cellAt row i = row.get ⟨i, h1⟩ := by
    simp [cellAt, List.getElem?_eq_getElem h1, List.get_eq_getElem]
  have hbound := mem_le_foldlMax (fun r => (cellAt r i).length) rows
    (headers.get ⟨i, hi⟩).length row hmem
  simp only at hbound
  rw [hcw2, ← hcell]
  omega

lemma map_length_zipWith (f : Str → Nat → Str) (P : Str → Nat → Prop)
    (hf : ∀ a w, P a w → (f a w).length = w) :
    ∀ {xs : List Str} {ws : List Nat}, List.Forall₂ P xs ws →
      (List.zipWith f xs ws).map List.length = ws
  | _, _, List.Forall₂.nil => rfl
  | _, _, List.Forall₂.cons h t => by
    simp only [List.zipWith_cons_cons, List.map_cons, hf _ _ h,
      map_length_zipWith f P hf t]

lemma mem_joinSep {c : Char} {sep : Str} :
    ∀ {xs : List Str}, c ∈ joinSep sep xs → c ∈ sep ∨ ∃ x ∈ xs, c ∈ x
  | [], h => by simp [joinSep] at h
  | [x], h => Or.inr ⟨x, by simp, h⟩
  | x :: y :: t, h => by
    simp only [joinSep, List.mem_append] at h
    rcases h with (h | h) | h
    · exact Or.inr ⟨x, by simp, h⟩
    · exact Or.inl h
    · rcases mem_joinSep h with h1 | ⟨z, hz, hc⟩
      · exact Or.inl h1
      · exact Or.inr ⟨z, List.mem_cons_of_mem _ hz, hc⟩

lemma mem_rowOf {c l m r : Char} {segs : List Str} (h : c ∈ rowOf l m r segs) :
    c = l ∨ c = m ∨ c = r ∨ ∃ s ∈ segs, c ∈ s := by
  simp only [rowOf, List.mem_append, List.mem_singleton] at h
  rcases h with (h | h) | h
  · exact Or.inl h
  · rcases mem_joinSep h with h1 | ⟨s, hs, hc⟩
    · exact Or.inr (Or.inl (List.mem_singleton.mp h1))
    · exact Or.inr (Or.inr (Or.inr ⟨s, hs, hc⟩))
  · exact Or.inr (Or.inr (Or.inl h))

lemma mem_zipWith {f : α → β → γ} :
    ∀ {xs : List α} {ys : List β} {z : γ}, z ∈ List.zipWith f xs ys →
      ∃ x ∈ xs, ∃ y ∈ ys, z = f x y
  | [], _, _, h => by simp at h
  | _ :: _, [], _, h => by simp at h
  | x :: xs, y :: ys, z, h => by
    rcases List.mem_cons.mp h with rfl | h1
    · exact ⟨x, by simp, y, by simp, rfl⟩
    · obtain ⟨x', hx, y', hy, rfl⟩ := mem_zipWith h1
      exact ⟨x', List.mem_cons_of_mem _ hx, y', List.mem_cons_of_mem _ hy, rfl⟩

lemma mem_intersperse {sep x : α} :
    ∀ {l : List α}, x ∈ List.intersperse sep l → x = sep ∨ x ∈ l
  | [], h => by simp at h
  | [a], h => by
    simp only [List.intersperse_singleton] at h
    exact Or.inr h
  | a :: b :: t, h => by
    rw [List.intersperse_cons_cons] at h
    rcases List.mem_cons.mp h with rfl | h1
    · exact Or.inr (List.mem_cons_self _ _)
    · rcases List.mem_cons.mp h1 with rfl | h2
      · exact Or.inl rfl
      · rcases mem_intersperse h2 with h3 | h3
        · exact Or.inl h3
        · exact Or.inr (List.mem_cons_of_mem _ h3)

lemma intersperse_ne_nil {sep : α} :
    ∀ {l : List α}, l ≠ [] → List.intersperse sep l ≠ []
  | [], h => absurd rfl h
  | [a], _ => by simp
  | a :: b :: t, _ => by
    rw [List.intersperse_cons_cons]
    simp

lemma rowOf_get_sep (m r : Char) :
    ∀ (segs : List Str) (l : Char) (k : Nat), k ≤ segs.length →
      ∃ ch, (rowOf l m r segs)[sepPos (segs.map List.length) k]? = some ch ∧
        (ch = l ∨ ch = m ∨ ch = r)
  | [], l, k, hk => by
    have : k = 0 := Nat.le_zero.mp hk
    subst this
    exact ⟨l, by simp [rowOf, joinSep, sepPos], Or.inl rfl⟩
  | s :: ss, l, 0, _ =>
    ⟨l, by simp [rowOf, sepPos, List.singleton_append], Or.inl rfl⟩
  | [s], l, k + 1, hk => by
    have : k = 0 := by simpa using hk
    subst this
    refine ⟨r, ?_, Or.inr (Or.inr rfl)⟩
    have hpos : sepPos ([s].map List.length) 1 = s.length + 1 := by
      simp [sepPos]
      omega
    rw [hpos]
    show (l :: (s ++ [r]))[s.length + 1]? = some r
    rw [List.getElem?_cons_succ]
    simpa using get?_concat_self s r
  | s :: t :: ts, l, k + 1, hk => by
    have key : rowOf l m r (s :: t :: ts) = (l :: s) ++ rowOf m m r (t :: ts) := by
      simp [rowOf, joinSep, List.append_assoc]
    have hpos : sepPos ((s :: t :: ts).map List.length) (k + 1) =
        (l :: s).length + sepPos ((t :: ts).map List.length) k := by
      simp [sepPos, List.sum_cons]
      omega
    obtain ⟨ch, hch, hor⟩ := rowOf_get_sep m r (t :: ts) m k (by simpa using hk)
    refine ⟨ch, ?_, ?_⟩
    · rw [key, hpos, List.getElem?_append_right (by omega)]
      simpa using hch
    · rcases hor with h | h | h
      · exact Or.inr (Or.inl h)
      · exact Or.inr (Or.inl h)
      · exact Or.inr (Or.inr h)

lemma bodyBlock_aux (ws : List Nat) :
    ∀ (rest : List (List Str)) (k total : Nat), total = k + rest.length → rest ≠ [] →
      joinSep ['\n'] (mapIdxFrom
        (fun ri row => if ri < total - 1 then bodyLine row ws ++ ['\n'] ++ midLine ws
                       else bodyLine row ws) k rest) =
      joinSep ['\n'] (List.intersperse (midLine ws)
        (rest.map (fun r => bodyLine r ws)))
  | [], _, _, _, hne => absurd rfl hne
  | [r0], k, total, htot, _ => by
    have hc : ¬ k < total - 1 := by
      subst htot
      simp
    simp [mapIdxFrom, hc]
  | r0 :: s :: rest', k, total, htot, _ => by
    have hc : k < total - 1 := by
      subst htot
      simp only [List.length_cons]
      omega
    have ih := bodyBlock_aux ws (s :: rest') (k + 1) total
      (by subst htot; simp; omega) (by simp)
    have hL1 : mapIdxFrom
        (fun ri row => if ri < total - 1 then bodyLine row ws ++ ['\n'] ++ midLine ws
                       else bodyLine row ws) (k + 1) (s :: rest') ≠ [] := by
      simp [mapIdxFrom]
    show joinSep ['\n'] ((if k < total - 1
        then bodyLine r0 ws ++ ['\n'] ++ midLine ws else bodyLine r0 ws) ::
        mapIdxFrom _ (k + 1) (s :: rest')) = _
    rw [if_pos hc, joinSep_cons_of_ne_nil _ _ hL1, ih]
    calc bodyLine r0 ws ++ ['\n'] ++ midLine ws ++ ['\n'] ++
          joinSep ['\n'] (List.intersperse (midLine ws)
            (List.map (fun r => bodyLine r ws) (s :: rest')))
        = bodyLine r0 ws ++ ['\n'] ++ (midLine ws ++ ['\n'] ++
          joinSep ['\n'] (List.intersperse (midLine ws)
            (List.map (fun r => bodyLine r ws) (s :: rest')))) := by
          simp [List.append_assoc]
      _ = bodyLine r0 ws ++ ['\n'] ++
          joinSep ['\n'] (midLine ws :: List.intersperse (midLine ws)
            (List.map (fun r => bodyLine r ws) (s :: rest'))) := by
          rw [joinSep_cons_of_ne_nil _ _ (intersperse_ne_nil (by simp))]
      _ = joinSep ['\n'] (bodyLine r0 ws :: midLine ws :: List.intersperse (midLine ws)
            (List.map (fun r => bodyLine r ws) (s :: rest'))) := rfl
      _ = joinSep ['\n'] (List.intersperse (midLine ws)
            (List.map (fun r => bodyLine r ws) (r0 :: s :: rest'))) := by
          simp [List.intersperse_cons_cons]

lemma bodyBlock_eq (rows : List (List Str)) (ws : List Nat) (h : rows ≠ []) :
    bodyBlock rows ws =
      joinNl (List.intersperse (midLine ws) (rows.map (fun r => bodyLine r ws))) := by
  unfold bodyBlock jsMapIdx joinNl
  exact bodyBlock_aux ws rows 0 rows.length (by simp) h

lemma buildTableString_eq_tableLines (headers : List Str) (rows : List (List Str))
    (h : rows ≠ []) :
    buildTableString headers rows = joinNl (tableLines headers rows) := by
  show joinSep ['\n'] [borderLine '┌' '┬' '┐' (colWidths headers rows),
      headLine headers (colWidths headers rows), midLine (colWidths headers rows),
      bodyBlock rows (colWidths headers rows),
      borderLine '└' '┴' '┘' (colWidths headers rows)] =
    joinSep ['\n'] ([borderLine '┌' '┬' '┐' (colWidths headers rows),
      headLine headers (colWidths headers rows), midLine (colWidths headers rows)] ++
      List.intersperse (midLine (colWidths headers rows))
        (rows.map (fun r => bodyLine r (colWidths headers rows))) ++
      [borderLine '└' '┴' '┘' (colWidths headers rows)])
  rw [bodyBlock_eq rows _ h]
  unfold joinNl
  refine joinSep_flatten_mid ['\n']
    [borderLine '┌' '┬' '┐' (colWidths headers rows),
     headLine headers (colWidths headers rows), midLine (colWidths headers rows)]
    [borderLine '└' '┴' '┘' (colWidths headers rows)]
    (List.intersperse (midLine (colWidths headers rows))
      (rows.map (fun r => bodyLine r (colWidths headers rows))))
    (intersperse_ne_nil ?_)
  intro hm
  rcases rows with _ | ⟨r0, rest⟩
  · exact h rfl
  · simp at hm

lemma headCell_length {h : Str} {w : Nat} (hw : h.length + 2 ≤ w) :
    (headCell h w).length = w := by
  apply padEnd_length_of_le
  simp only [List.length_append, List.length_singleton]
  omega

lemma bodyCell_length {c : Str} {w : Nat} (hw : c.length + 1 ≤ w) :
    (bodyCell c w).length = w := by
  apply padEnd_length_of_le
  simp only [List.length_append, List.length_singleton]
  omega

lemma tableLines_shape (headers : List Str) (rows : List (List Str))
    (harity : ∀ r ∈ rows, r.length = headers.length)
    (hnlh : ∀ h ∈ headers, ('\n' : Char) ∉ h)
    (hnlc : ∀ r ∈ rows, ∀ c ∈ r, ('\n' : Char) ∉ c) :
    ∀ line ∈ tableLines headers rows, ∃ l m r segs,
      line = rowOf l m r segs ∧ segs.map List.length = colWidths headers rows ∧
      l ∈ boxChars ∧ m ∈ boxChars ∧ r ∈ boxChars ∧
      ∀ s ∈ segs, ('\n' : Char) ∉ s := by
  have hborder : ∀ a b c : Char, ∃ segs,
      borderLine a b c (colWidths headers rows) = rowOf a b c segs ∧
      segs.map List.length = colWidths headers rows ∧
      ∀ s ∈ segs, ('\n' : Char) ∉ s := by
    intro a b c
    refine ⟨(colWidths headers rows).map (fun w => List.replicate w '─'), rfl, ?_, ?_⟩
    · simp [List.map_map, Function.comp_def]
    · intro s hs
      simp only [List.mem_map] at hs
      obtain ⟨w, _, rfl⟩ := hs
      simp [List.mem_replicate]
  have hhead : ∃ segs,
      headLine headers (colWidths headers rows) = rowOf '│' '│' '│' segs ∧
      segs.map List.length = colWidths headers rows ∧
      ∀ s ∈ segs, ('\n' : Char) ∉ s := by
    refine ⟨List.zipWith headCell headers (colWidths headers rows), rfl, ?_, ?_⟩
    · exact map_length_zipWith headCell (fun h w => h.length + 2 ≤ w)
        (fun a w hw => headCell_length hw) (forall₂_headers_colWidths headers rows)
    · intro s hs
      obtain ⟨h, hh, w, _, rfl⟩ := mem_zipWith hs
      intro hin
      simp only [headCell, padEnd, List.mem_append, List.mem_singleton,
        List.mem_replicate] at hin
      rcases hin with ((h1 | h1) | h1) | h1
      · exact absurd h1 (by decide)
      · exact hnlh h hh h1
      · exact absurd h1 (by decide)
      · exact absurd h1.2 (by decide)
  have hbody : ∀ row ∈ rows, ∃ segs,
      bodyLine row (colWidths headers rows) = rowOf '│' '│' '│' segs ∧
      segs.map List.length = colWidths headers rows ∧
      ∀ s ∈ segs, ('\n' : Char) ∉ s := by
    intro row hrow
    refine ⟨List.zipWith bodyCell row (colWidths headers rows), rfl, ?_, ?_⟩
    · exact map_length_zipWith bodyCell (fun c w => c.length + 1 ≤ w)
        (fun a w hw => bodyCell_length hw)
        (forall₂_row_colWidths headers rows row hrow (harity row hrow))
    · intro s hs
      obtain ⟨c, hc, w, _, rfl⟩ := mem_zipWith hs
      intro hin
      simp only [bodyCell, padEnd, List.mem_append, List.mem_singleton,
        List.mem_replicate] at hin
      rcases hin with (h1 | h1) | h1
      · exact absurd h1 (by decide)
      · exact hnlc row hrow c hc h1
      · exact absurd h1.2 (by decide)
  intro line hline
  simp only [tableLines, List.append_assoc, List.mem_append, List.mem_cons,
    List.not_mem_nil, or_false, List.mem_singleton] at hline
  rcases hline with (rfl | rfl | rfl) | (hline | rfl)
  · obtain ⟨segs, he, hw, hn⟩ := hborder '┌' '┬' '┐'
    exact ⟨_, _, _, segs, he, hw, by decide, by decide, by decide, hn⟩
  · obtain ⟨segs, he, hw, hn⟩ := hhead
    exact ⟨_, _, _, segs, he, hw, by decide, by decide, by decide, hn⟩
  · obtain ⟨segs, he, hw, hn⟩ := hborder '├' '┼' '┤'
    exact ⟨_, _, _, segs, he, hw, by decide, by decide, by decide, hn⟩
  · rcases mem_intersperse hline with rfl | hline2
    · obtain ⟨segs, he, hw, hn⟩ := hborder '├' '┼' '┤'
      exact ⟨_, _, _, segs, he, hw, by decide, by decide, by decide, hn⟩
    · obtain ⟨row, hrow, rfl⟩ := List.mem_map.mp hline2
      obtain ⟨segs, he, hw, hn⟩ := hbody row hrow
      exact ⟨_, _, _, segs, he, hw, by decide, by decide, by decide, hn⟩
  · obtain ⟨segs, he, hw, hn⟩ := hborder '└' '┴' '┘'
    exact ⟨_, _, _, segs, he, hw, by decide, by decide, by decide, hn⟩

/-- C7 counterexample: two inputs within the claim's scope (rows all of
header arity) on which the rendered lines do not all have the same length —
an empty row list leaves an empty rendered line between the separator and the
bottom border, and a newline inside a cell splits a body row. -/
theorem buildTableString_uniform_cex :
    (splitChar '\n' (buildTableString [str "a"] [])).map List.length =
      [5, 5, 5, 0, 5] ∧
    (splitChar '\n' (buildTableString [str "a"] [[str "x\ny"]])).map List.length =
      [7, 7, 7, 3, 3, 7] ∧
    (5 : Nat) ≠ 0 ∧ (7 : Nat) ≠ 3 := by decide

/-- C7 amended: for a nonempty row list whose rows all have the header arity
and whose headers and cells contain no newline character — each column width
is the maximum of the header length and all cell lengths in the column plus 2
padding; the rendered string is exactly the newline-join of the table lines,
with the separator row standing between each pair of adjacent body rows; no
rendered line contains a newline; every rendered line has the same total
character count; and at every column-separator position every line carries a
box-drawing character. -/
theorem buildTableString_amended (headers : List Str) (rows : List (List Str))
    (hrows : rows ≠ [])
    (harity : ∀ r ∈ rows, r.length = headers.length)
    (hnlh : ∀ h ∈ headers, ('\n' : Char) ∉ h)
    (hnlc : ∀ r ∈ rows, ∀ c ∈ r, ('\n' : Char) ∉ c) :
    (∀ i h, headers[i]? = some h →
      (colWidths headers rows)[i]? =
        some (Nat.max h.length
          ((rows.map (fun r => (cellAt r i).length)).foldr Nat.max 0) + 2)) ∧
    buildTableString headers rows = joinNl (tableLines headers rows) ∧
    (∀ line ∈ tableLines headers rows, ('\n' : Char) ∉ line) ∧
    (∀ line ∈ tableLines headers rows,
      line.length = (colWidths headers rows).sum + (headers.length - 1) + 2) ∧
    (∀ line ∈ tableLines headers rows, ∀ k, k ≤ headers.length →
      ∃ ch, (line)[sepPos (colWidths headers rows) k]? = some ch ∧ ch ∈ boxChars) := by
  have hshape := tableLines_shape headers rows harity hnlh hnlc
  refine ⟨fun i h hh => ?_, buildTableString_eq_tableLines headers rows hrows,
    fun line hline => ?_, fun line hline => ?_, fun line hline k hk => ?_⟩
  · have hfold := foldlMax_eq (fun r => (cellAt r i).length) rows h.length
    simp only at hfold
    rw [colWidths_getElem? headers rows i h hh, hfold]
  · obtain ⟨l, m, r, segs, rfl, hw, hl, hm, hr, hn⟩ := hshape line hline
    have hnb : ('\n' : Char) ∉ boxChars := by decide
    intro hin
    rcases mem_rowOf hin with h1 | h1 | h1 | ⟨s, hs, hc⟩
    · exact hnb (h1 ▸ hl)
    · exact hnb (h1 ▸ hm)
    · exact hnb (h1 ▸ hr)
    · exact hn s hs hc
  · obtain ⟨l, m, r, segs, rfl, hw, _, _, _, _⟩ := hshape line hline
    have hlen : segs.length = (colWidths headers rows).length := by
      rw [← hw, List.length_map]
    rw [rowOf_length, hw, hlen, colWidths_length]
  · obtain ⟨l, m, r, segs, rfl, hw, hl, hm, hr, _⟩ := hshape line hline
    have hlen : segs.length = headers.length := by
      rw [← colWidths_length headers rows, ← hw, List.length_map]
    obtain ⟨ch, hch, hor⟩ := rowOf_get_sep m r segs l k (by omega)
    rw [hw] at hch
    refine ⟨ch, hch, ?_⟩
    rcases hor with rfl | rfl | rfl
    · exact hl
    · exact hm
    · exact hr

/-- Witness for C7 (amended) at a concrete two-column table. -/
theorem buildTableString_amended_witness :
    buildTableString [str "a", str "bb"] [[str "x", str "yy"]] =
      joinNl (tableLines [str "a", str "bb"] [[str "x", str "yy"]]) :=
  (buildTableString_amended [str "a", str "bb"] [[str "x", str "yy"]]
    (by decide) (by decide) (by decide) (by decide)).2.1
